import Mathlib

/-!
Shallow embedding of the paracrawl/b64filter repository.

The repository holds two revisions of the same program:
* revision 1: src/b64filter.go (channel-based count ledger, capacity 256);
* revision 2: src/unnamed/part_001 (queue-based ledger, done channel).

Nat streams are modelled as lists of naturals (byte values); the line
terminator is the newline byte 10.  `bufio.Reader.ReadLine` is modelled by
`readLineEvents`, which turns a byte stream and a buffer capacity into the
sequence of (chunk, isContinuation) results that `ReadLine` delivers: a line
whose terminator lies within the first `c` buffered bytes is delivered whole
(flag `false`) with the terminator stripped; a longer line is delivered as
`c`-byte continuation chunks (flag `true`); a final unterminated line is
delivered whole with flag `false`; end of input is the end of the event list.
(The carriage-return handling of `ReadLine` is not modelled: the program only
ever writes the terminator byte 10, and the spec's terminator is a single
line terminator.)

The base64 primitives of encoding/base64 (StdEncoding) are modelled
concretely (`b64encode`, `b64decode`) so that every definition is executable.

Goroutine concurrency collapses in this embedding: the Feeder writes the
whole subprocess input stream, the identity line-for-line filter makes the
subprocess output stream equal to it, and the Reassembler consumes that
stream against the ledger entries in FIFO order, which is exactly the order
the lists record.
-/

namespace B64Filter

/-- The line terminator byte (newline). -/
def NL : Nat := 10

/-- The padding byte 61, the ASCII code of the base64 padding character. -/
def PAD : Nat := 61

/-- One `bufio.Reader.ReadLine` result: the returned bytes and the
continuation flag (`true` when the buffer filled before a terminator was
seen, Go's `isPrefix`). -/
abbrev Chunk := List Nat × Bool

/-- Index of the first terminator byte in a stream, if any. -/
def idxOfNL : List Nat → Option Nat
  | [] => none
  | b :: bs => if b = NL then some 0 else (idxOfNL bs).map (· + 1)

/-- Fuelled worker for `readLineEvents`.  The fuel argument only serves
structural termination; `readLineEvents` always supplies fuel equal to the
stream length, which is sufficient because every event consumes at least one
byte of the stream. -/
def readLineEventsF (c : Nat) : Nat → List Nat → List Chunk
  | _, [] => []
  | 0, _ :: _ => []
  | fuel + 1, b :: bs =>
    match idxOfNL (b :: bs) with
    | some i =>
      if i < c then
        ((b :: bs).take i, false) :: readLineEventsF c fuel ((b :: bs).drop (i + 1))
      else
        ((b :: bs).take c, true) :: readLineEventsF c fuel ((b :: bs).drop (max c 1))
    | none =>
      if (b :: bs).length ≤ c then [((b :: bs), false)]
      else ((b :: bs).take c, true) :: readLineEventsF c fuel ((b :: bs).drop (max c 1))

/-- The sequence of `ReadLine` results a `bufio.Reader` with buffer capacity
`c` delivers on byte stream `s` (capacity is 4096 for `bufio.NewReader`).
After the returned list is exhausted, every further `ReadLine` reports end
of input. -/
def readLineEvents (c : Nat) (s : List Nat) : List Chunk :=
  readLineEventsF c s.length s

/-- The base64 standard alphabet, as ASCII byte values
(A-Z, a-z, 0-9, '+', '/'). -/
def b64alphabet : List Nat :=
  [65, 66, 67, 68, 69, 70, 71, 72, 73, 74, 75, 76, 77, 78, 79, 80,
   81, 82, 83, 84, 85, 86, 87, 88, 89, 90,
   97, 98, 99, 100, 101, 102, 103, 104, 105, 106, 107, 108, 109, 110,
   111, 112, 113, 114, 115, 116, 117, 118, 119, 120, 121, 122,
   48, 49, 50, 51, 52, 53, 54, 55, 56, 57, 43, 47]

/-- Sextet to alphabet byte. -/
def sx (n : Nat) : Nat := b64alphabet.getD n 65

/-- Worker for `dsx`: position of a byte in the alphabet. -/
def dsxAux : List Nat → Nat → Nat → Option Nat
  | [], _, _ => none
  | a :: as, i, ch => if a = ch then some i else dsxAux as (i + 1) ch

/-- Alphabet byte back to sextet; `none` on a byte outside the alphabet
(Go reports CorruptInputError). -/
def dsx (ch : Nat) : Option Nat := dsxAux b64alphabet 0 ch

/-- base64.StdEncoding.Encode: three input bytes become four alphabet bytes;
a final group of two or one bytes is padded with one or two `PAD` bytes. -/
def b64encode : List Nat → List Nat
  | a :: b :: c :: rest =>
    sx (a / 4) :: sx (a % 4 * 16 + b / 16) :: sx (b % 16 * 4 + c / 64) :: sx (c % 64)
      :: b64encode rest
  | [a, b] => [sx (a / 4), sx (a % 4 * 16 + b / 16), sx (b % 16 * 4), PAD]
  | [a] => [sx (a / 4), sx (a % 4 * 16), PAD, PAD]
  | [] => []

/-- base64.StdEncoding.Decode: four alphabet bytes become three output bytes;
trailing padding yields a short final group and must end the input; input
whose length is not a multiple of four is rejected. -/
def b64decode : List Nat → Option (List Nat)
  | [] => some []
  | c1 :: c2 :: c3 :: c4 :: rest =>
    match dsx c1, dsx c2 with
    | some a, some b =>
      if c3 = PAD then
        if c4 = PAD ∧ rest = [] then some [a * 4 + b / 16] else none
      else
        match dsx c3 with
        | some cv =>
          if c4 = PAD then
            if rest = [] then some [a * 4 + b / 16, b % 16 * 16 + cv / 4] else none
          else
            match dsx c4, b64decode rest with
            | some dv, some tl =>
              some ((a * 4 + b / 16) :: (b % 16 * 16 + cv / 4) :: (cv % 4 * 64 + dv) :: tl)
            | _, _ => none
        | none => none
    | _, _ => none
  | _ => none

/-- Decode a list of base64 lines in order; `none` as soon as one line fails
to decode (`log.Fatalf` aborts the run on the first bad line). -/
def decodeAll : List (List Nat) → Option (List (List Nat))
  | [] => some []
  | l :: ls =>
    match b64decode l, decodeAll ls with
    | some d, some ds => some (d :: ds)
    | _, _ => none

/-- Encode a list of documents in order. -/
def encodeAll (ds : List (List Nat)) : List (List Nat) :=
  ds.map b64encode

/-- The loop body of `readDocs` (identical in both revisions): accumulate
`ReadLine` chunks into `line`; on a complete line decode it and emit the
document (fatal, i.e. `none`, if decoding fails); at end of input decode and
emit a non-empty pending fragment, emit nothing for an empty one. -/
def readDocsLoop : List Nat → List Chunk → Option (List (List Nat))
  | line, [] =>
    if line.length > 0 then (b64decode line).map (fun d => [d]) else some []
  | line, (chunk, pfx) :: evs =>
    if pfx then readDocsLoop (line ++ chunk) evs
    else
      match b64decode (line ++ chunk) with
      | none => none
      | some d => (readDocsLoop [] evs).map (fun ds => d :: ds)

/-- `readDocs` of both revisions: the sequence of decoded documents produced
from the input byte stream, read through a buffer of capacity `c`;
`none` when a line fails to decode. -/
def readDocs (c : Nat) (s : List Nat) : Option (List (List Nat)) :=
  readDocsLoop [] (readLineEvents c s)

/-- `readNLines` of revision 1 (src/b64filter.go lines 83-112): run the loop
`count` times; a continuation chunk accumulates but still consumes a loop
iteration; at end of input a non-empty pending line is appended and the loop
breaks.  Returns the collected lines and the remaining events of the shared
reader. -/
def readNLines1 : Nat → List Nat → List Chunk → List (List Nat) × List Chunk
  | 0, _, evs => ([], evs)
  | _ + 1, line, [] => (if line.length > 0 then [line] else [], [])
  | n + 1, line, (chunk, pfx) :: evs =>
    if pfx then readNLines1 n (line ++ chunk) evs
    else
      let r := readNLines1 n [] evs
      ((line ++ chunk) :: r.1, r.2)

/-- `readNLines` of revision 2 (src/unnamed/part_001 lines 93-130): as
revision 1, except a continuation chunk does not consume a loop iteration
(the `n--` branch), and at end of input the pending line is appended even
when it is empty. -/
def readNLines2 : Nat → List Nat → List Chunk → List (List Nat) × List Chunk
  | 0, _, evs => ([], evs)
  | _ + 1, line, [] => ([line], [])
  | n + 1, line, (chunk, pfx) :: evs =>
    if pfx then readNLines2 (n + 1) (line ++ chunk) evs
    else
      let r := readNLines2 n [] evs
      ((line ++ chunk) :: r.1, r.2)

/-- Revision 1 `readNLines` on a raw byte stream read through a buffer of
capacity `c`: the list of lines returned for requested count `n`. -/
def readNLinesRev1 (c n : Nat) (s : List Nat) : List (List Nat) :=
  (readNLines1 n [] (readLineEvents c s)).1

/-- Revision 2 `readNLines` on a raw byte stream read through a buffer of
capacity `c`: the list of lines returned for requested count `n`. -/
def readNLinesRev2 (c n : Nat) (s : List Nat) : List (List Nat) :=
  (readNLines2 n [] (readLineEvents c s)).1

/-- `bytes.Join(lines, "\n")`. -/
def joinNL : List (List Nat) → List Nat
  | [] => []
  | [s] => s
  | s :: ss => s ++ NL :: joinNL ss

/-- The line segments of a document: split at every terminator byte.  A
document with `k` terminators has `k + 1` segments (the spec's "Line: a
maximal run of bytes not containing the line terminator"); this is the
vocabulary used to state per-line properties of the byte streams. -/
def splitNL : List Nat → List (List Nat)
  | [] => [[]]
  | b :: bs =>
    if b = NL then [] :: splitNL bs
    else
      match splitNL bs with
      | [] => [[b]]
      | s :: ss => (b :: s) :: ss

/-- `writeDocs` of revision 1 (src/b64filter.go lines 114-134) as the list of
records written to the output stream: for each ledger count `n`, in order,
read `n` lines from the subprocess output events, abort (`none`) when fewer
than `n` lines come back (`log.Fatalf("expected %v lines got %v", ...)`),
otherwise join them with the terminator, base64-encode, and append one
terminator. -/
def writeDocsList : List Nat → List Chunk → Option (List (List Nat))
  | [], _ => some []
  | n :: ns, evs =>
    let r := readNLines1 n [] evs
    if r.1.length = n then
      match writeDocsList ns r.2 with
      | none => none
      | some outs => some ((b64encode (joinNL r.1) ++ [NL]) :: outs)
    else none

/-- The output byte stream of `writeDocs`: the written records concatenated. -/
def writeDocsOut (ns : List Nat) (evs : List Chunk) : Option (List Nat) :=
  (writeDocsList ns evs).map List.flatten

/-- The line count the feeder pushes onto the ledger for one document:
`bytes.Count(doc, "\n") + 1` ("extra newline at end"). -/
def feederCount (d : List Nat) : Nat := d.count NL + 1

/-- The bytes the feeder writes to the subprocess input pipe for one
document: `cmdin.Write(doc)` followed by `cmdin.Write([]byte("\n"))`. -/
def feederWrites (d : List Nat) : List Nat := d ++ [NL]

/-- Terminate every record of a list and concatenate the results. -/
def terminatedJoin (ls : List (List Nat)) : List Nat :=
  (ls.map (fun s => s ++ [NL])).flatten

/-- The whole subprocess input stream the feeder writes for a document
sequence. -/
def feederInput (docs : List (List Nat)) : List Nat := terminatedJoin docs

/-- The ledger contents pushed by the feeder, in document order. -/
def feederCounts (docs : List (List Nat)) : List Nat := docs.map feederCount

/-- A document sequence framed as the external base64 format: one encoded
line per document, each followed by the terminator. -/
def framedRecords (ds : List (List Nat)) : List (List Nat) :=
  (encodeAll ds).map (fun d => d ++ [NL])

/-- The byte stream of a document sequence in the external base64 format. -/
def b64Stream (ds : List (List Nat)) : List Nat := (framedRecords ds).flatten

/-- The reassembly half of revision 1 run on a document list: feed the
ledger counts and the subprocess output stream (equal to the feeder's input
stream, the filter being the identity line-for-line transform) to
`writeDocs` and collect the output stream. -/
def b64filterOut (c : Nat) (docs : List (List Nat)) : Option (List Nat) :=
  writeDocsOut (feederCounts docs) (readLineEvents c (feederInput docs))

/-- End-to-end revision 1 pipeline with an identity line-for-line filter:
decode the input stream into documents, feed them (writing each document
plus one terminator and pushing its count), and reassemble the subprocess
output.  Both `bufio.NewReader` buffers have capacity `c` (4096 in the
program). -/
def b64filterRun (c : Nat) (input : List Nat) : Option (List Nat) :=
  match readDocs c input with
  | none => none
  | some docs => b64filterOut c docs

/-- A document used as a concrete counterexample: a single physical line of
4096 identical bytes, the full size of the revision 1 output read buffer. -/
def bigDoc : List Nat := List.replicate 4096 65

/-! ### Shutdown traces of the coordinator

The code after the feed loop is straight-line in both revisions, so the order
of its effects is a fixed list of events. -/

/-- Observable coordinator effects around shutdown. -/
inductive CoordEvent where
  /-- `close(counts)` in revision 1, `counts.Dispose()` in revision 2: the
  ledger's completion signal, after which no entry is ever pushed. -/
  | closeLedger
  /-- `cmdin.Close()`: end-of-input for the subprocess. -/
  | closeStdin
  /-- Revision 2's poll loop that waits for `counts.Empty()`. -/
  | pollLedgerEmpty
  /-- Revision 2's `<-done`: the reassembler's confirmation that the ledger
  is drained and all expected subprocess output has been consumed. -/
  | recvDone
  /-- `cmd.Wait()`: reap the subprocess. -/
  | waitCmd
  /-- The final `log.Printf("processed %v documents", i)`. -/
  | report
deriving DecidableEq

/-- Revision 1 shutdown (src/b64filter.go lines 192-199): close the counts
channel, close the input pipe, wait for the subprocess, report. -/
def shutdownTrace1 : List CoordEvent :=
  [CoordEvent.closeLedger, CoordEvent.closeStdin, CoordEvent.waitCmd, CoordEvent.report]

/-- Revision 2 shutdown (src/unnamed/part_001 lines 250-268): close the input
pipe, poll the ledger until empty, dispose it, receive the reassembler's done
signal, wait for the subprocess, report. -/
def shutdownTrace2 : List CoordEvent :=
  [CoordEvent.closeStdin, CoordEvent.pollLedgerEmpty, CoordEvent.closeLedger,
   CoordEvent.recvDone, CoordEvent.waitCmd, CoordEvent.report]

/-- Index of the first occurrence of an event in a trace. -/
def idxOfEvent (e : CoordEvent) : List CoordEvent → Option Nat
  | [] => none
  | x :: xs => if x = e then some 0 else (idxOfEvent e xs).map (· + 1)

/-- `a` occurs in the trace and does so before an occurrence of `b`. -/
def eventBefore (a b : CoordEvent) (t : List CoordEvent) : Bool :=
  match idxOfEvent a t, idxOfEvent b t with
  | some i, some j => decide (i < j)
  | _, _ => false

/-! ### Failure handling

Each failure site of the program is translated to the effect the handler
invokes: `log.Fatalf` terminates the whole pipeline, `log.Printf` only logs
and continues. -/

/-- What a failure handler does to the pipeline. -/
inductive FailureEffect where
  /-- `log.Fatalf`: the run terminates. -/
  | fatalAbort
  /-- `log.Printf`: logged, the pipeline continues. -/
  | logContinue
deriving DecidableEq

/-- Revision 1, error-drain goroutine (src/b64filter.go lines 161-166): an
`io.Copy(os.Stderr, cmderr)` error hits `log.Fatalf`. -/
def stderrDrainFailure1 : FailureEffect := FailureEffect.fatalAbort

/-- Revision 2, error-drain goroutine (src/unnamed/part_001 lines 215-220):
an `io.Copy(os.Stderr, cmderr)` error hits `log.Printf`. -/
def stderrDrainFailure2 : FailureEffect := FailureEffect.logContinue

/-- Both revisions: a base64 decode error in `readDocs` hits `log.Fatalf`. -/
def decodeFailure : FailureEffect := FailureEffect.fatalAbort

/-- Both revisions: a write error on the subprocess input pipe hits
`log.Fatalf("error writing to filter: %v", err)`. -/
def filterWriteFailure : FailureEffect := FailureEffect.fatalAbort

/-- Both revisions: a line-count mismatch in `writeDocs` hits
`log.Fatalf("expected %v lines got %v", ...)`. -/
def countMismatchFailure : FailureEffect := FailureEffect.fatalAbort

/-- Both revisions: a non-zero or abnormal subprocess exit from `cmd.Wait()`
hits `log.Fatalf("error waiting for command: %v", err)`. -/
def cmdWaitFailure : FailureEffect := FailureEffect.fatalAbort

/-! ### The count ledger of revision 1

Revision 1's ledger is `make(chan int, 256)`: a bounded FIFO whose send
blocks while 256 entries are buffered.  The state records the history of
pushed and popped values together with the current buffer. -/

/-- Capacity of revision 1's count ledger (`make(chan int, 256)`). -/
def ledgerCap : Nat := 256

/-- Ledger state: what was pushed so far, what is buffered, what was popped. -/
structure Ledger where
  /-- All values the feeder has pushed, oldest first. -/
  pushed : List Nat
  /-- Values currently buffered in the channel, oldest first. -/
  buf : List Nat
  /-- All values the reassembler has popped, oldest first. -/
  popped : List Nat

/-- Whether a push can proceed: a buffered channel send blocks exactly when
the buffer holds `ledgerCap` entries. -/
def ledgerPushEnabled (s : Ledger) : Bool := decide (s.buf.length < ledgerCap)

/-- One ledger transition: the feeder pushes (only when below capacity —
a full channel blocks the sender), or the reassembler pops the oldest entry. -/
inductive LedgerStep : Ledger → Ledger → Prop where
  | push (v : Nat) (s : Ledger) (h : s.buf.length < ledgerCap) :
      LedgerStep s ⟨s.pushed ++ [v], s.buf ++ [v], s.popped⟩
  | pop (v : Nat) (b' : List Nat) (s : Ledger) (h : s.buf = v :: b') :
      LedgerStep s ⟨s.pushed, b', s.popped ++ [v]⟩

/-- Ledger states reachable from the empty initial channel. -/
inductive LedgerReach : Ledger → Prop where
  | init : LedgerReach ⟨[], [], []⟩
  | step {s s' : Ledger} : LedgerReach s → LedgerStep s s' → LedgerReach s'

/-! ## Helper lemmas -/

theorem drop_append_cons_len (L : List Nat) (b : Nat) (M : List Nat) :
    (L ++ b :: M).drop (L.length + 1) = M := by
  have h : L ++ b :: M = (L ++ [b]) ++ M := by simp
  have hl : L.length + 1 = (L ++ [b]).length := by simp
  rw [h, hl, List.drop_left]

theorem idxOfNL_of_not_mem (L : List Nat) (h : NL ∉ L) : idxOfNL L = none := by
  induction L with
  | nil => rfl
  | cons b bs ih =>
    have hb : ¬(b = NL) := fun hb => h (by simp [hb])
    simp [idxOfNL, hb, ih (fun hm => h (by simp [hm]))]

theorem idxOfNL_append_nl (L rest : List Nat) (h : NL ∉ L) :
    idxOfNL (L ++ NL :: rest) = some L.length := by
  induction L with
  | nil => simp [idxOfNL]
  | cons b bs ih =>
    have hb : ¬(b = NL) := fun hb => h (by simp [hb])
    simp [idxOfNL, hb, ih (fun hm => h (by simp [hm]))]

theorem readLineEventsF_congr (c : Nat) :
    ∀ (f g : Nat) (s : List Nat), s.length ≤ f → s.length ≤ g →
      readLineEventsF c f s = readLineEventsF c g s := by
  intro f
  induction f with
  | zero =>
    intro g s hf _
    have : s = [] := List.eq_nil_of_length_eq_zero (Nat.le_zero.mp hf)
    subst this
    cases g <;> rfl
  | succ f ih =>
    intro g s hf hg
    cases s with
    | nil => cases g <;> rfl
    | cons b bs =>
      cases g with
      | zero => simp at hg
      | succ g =>
        have hlen : bs.length ≤ f := by simpa using hf
        have hlen' : bs.length ≤ g := by simpa using hg
        simp only [readLineEventsF]
        have hdrop : ∀ k : Nat, 1 ≤ k →
            readLineEventsF c f ((b :: bs).drop k) = readLineEventsF c g ((b :: bs).drop k) := by
          intro k hk
          apply ih
          · simp [List.length_drop]; omega
          · simp [List.length_drop]; omega
        cases h : idxOfNL (b :: bs) with
        | some i =>
          by_cases hi : i < c
          · simp only [hi, if_true]
            rw [hdrop (i + 1) (by omega)]
          · simp only [hi, if_false]
            rw [hdrop (max c 1) (Nat.le_max_right c 1)]
        | none =>
          by_cases hl : (b :: bs).length ≤ c
          · simp only [hl, if_true]
          · simp only [hl, if_false]
            rw [hdrop (max c 1) (Nat.le_max_right c 1)]

theorem readLineEvents_cons (c : Nat) (b : Nat) (bs : List Nat) :
    readLineEvents c (b :: bs) =
      match idxOfNL (b :: bs) with
      | some i =>
        if i < c then
          ((b :: bs).take i, false) :: readLineEvents c ((b :: bs).drop (i + 1))
        else
          ((b :: bs).take c, true) :: readLineEvents c ((b :: bs).drop (max c 1))
      | none =>
        if (b :: bs).length ≤ c then [((b :: bs), false)]
        else ((b :: bs).take c, true) :: readLineEvents c ((b :: bs).drop (max c 1)) := by
  show readLineEventsF c (b :: bs).length (b :: bs) = _
  simp only [List.length_cons, readLineEventsF]
  have hdrop : ∀ k : Nat, 1 ≤ k →
      readLineEventsF c bs.length ((b :: bs).drop k) = readLineEvents c ((b :: bs).drop k) := by
    intro k hk
    apply readLineEventsF_congr
    · simp [List.length_drop]; omega
    · exact Nat.le_refl _
  cases h : idxOfNL (b :: bs) with
  | some i =>
    by_cases hi : i < c
    · simp only [hi, if_true, hdrop (i + 1) (by omega)]
    · simp only [hi, if_false, hdrop (max c 1) (Nat.le_max_right c 1)]
  | none =>
    rw [hdrop (max c 1) (Nat.le_max_right c 1)]

theorem readLineEvents_line (c : Nat) (L rest : List Nat) (hL : NL ∉ L)
    (hlen : L.length < c) :
    readLineEvents c (L ++ NL :: rest) = (L, false) :: readLineEvents c rest := by
  have hidx : idxOfNL (L ++ NL :: rest) = some L.length := idxOfNL_append_nl L rest hL
  have htake : (L ++ NL :: rest).take L.length = L := List.take_left L (NL :: rest)
  have hdrop : (L ++ NL :: rest).drop (L.length + 1) = rest := drop_append_cons_len L NL rest
  cases hs : L ++ NL :: rest with
  | nil => exact absurd hs (by simp)
  | cons b bs =>
    rw [readLineEvents_cons, ← hs, hidx]
    simp only [hlen, if_true, htake, hdrop]

theorem readLineEvents_longline (c : Nat) (L rest : List Nat) (hL : NL ∉ L)
    (hc : 1 ≤ c) (hlen : c ≤ L.length) :
    readLineEvents c (L ++ NL :: rest) =
      (L.take c, true) :: readLineEvents c (L.drop c ++ NL :: rest) := by
  have hidx : idxOfNL (L ++ NL :: rest) = some L.length := idxOfNL_append_nl L rest hL
  have htake : (L ++ NL :: rest).take c = L.take c := List.take_append_of_le_length hlen
  have hmax : max c 1 = c := Nat.max_eq_left hc
  have hdrop : (L ++ NL :: rest).drop c = L.drop c ++ NL :: rest :=
    List.drop_append_of_le_length hlen
  cases hs : L ++ NL :: rest with
  | nil => exact absurd hs (by simp)
  | cons b bs =>
    rw [readLineEvents_cons, ← hs, hidx]
    simp only [Nat.not_lt_of_le hlen, if_false, hmax, htake, hdrop]

theorem readLineEvents_nonl_short (c : Nat) (s : List Nat) (h : NL ∉ s)
    (hlen : s.length ≤ c) (hs : s ≠ []) : readLineEvents c s = [(s, false)] := by
  have hidx : idxOfNL s = none := idxOfNL_of_not_mem s h
  cases s with
  | nil => exact absurd rfl hs
  | cons b bs =>
    rw [readLineEvents_cons, hidx]
    simp only [hlen, if_true]

theorem readLineEvents_nonl_long (c : Nat) (s : List Nat) (h : NL ∉ s)
    (hc : 1 ≤ c) (hlen : c < s.length) :
    readLineEvents c s = (s.take c, true) :: readLineEvents c (s.drop c) := by
  have hidx : idxOfNL s = none := idxOfNL_of_not_mem s h
  have hmax : max c 1 = c := Nat.max_eq_left hc
  cases s with
  | nil => simp at hlen
  | cons b bs =>
    rw [readLineEvents_cons, hidx]
    simp only [Nat.not_le_of_lt hlen, if_false, hmax]

theorem readLineEvents_terminated (c : Nat) :
    ∀ (ls : List (List Nat)) (rest : List Nat),
      (∀ L ∈ ls, NL ∉ L ∧ L.length < c) →
      readLineEvents c (terminatedJoin ls ++ rest) =
        ls.map (fun s => (s, false)) ++ readLineEvents c rest
  | [], rest, _ => by simp [terminatedJoin]
  | L :: ls, rest, h => by
    have h1 := h L (by simp)
    have hstream : terminatedJoin (L :: ls) ++ rest = L ++ NL :: (terminatedJoin ls ++ rest) := by
      simp [terminatedJoin]
    rw [hstream, readLineEvents_line c L _ h1.1 h1.2,
      readLineEvents_terminated c ls rest (fun M hM => h M (by simp [hM]))]
    simp

theorem splitNL_ne_nil (l : List Nat) : splitNL l ≠ [] := by
  induction l with
  | nil => simp [splitNL]
  | cons b bs ih =>
    by_cases hb : b = NL
    · simp [splitNL, hb]
    · cases h : splitNL bs with
      | nil => simp [splitNL, hb, h]
      | cons s ss => simp [splitNL, hb, h]

theorem length_splitNL (l : List Nat) : (splitNL l).length = l.count NL + 1 := by
  induction l with
  | nil => simp [splitNL]
  | cons b bs ih =>
    by_cases hb : b = NL
    · simp [splitNL, hb, List.count_cons, ih]
    · cases h : splitNL bs with
      | nil => exact absurd h (splitNL_ne_nil bs)
      | cons s ss =>
        rw [h] at ih
        simp only [splitNL, hb, if_false, h]
        simp only [List.length_cons] at ih ⊢
        have hcnt : (b :: bs).count NL = bs.count NL := by
          have hnb : NL ≠ b := fun hc => hb hc.symm
          simp [List.count_cons, hnb]
        omega

theorem not_mem_splitNL (l : List Nat) : ∀ s ∈ splitNL l, NL ∉ s := by
  induction l with
  | nil => simp [splitNL]
  | cons b bs ih =>
    by_cases hb : b = NL
    · simp only [splitNL, hb, if_true]
      intro s hs
      rcases List.mem_cons.mp hs with h | h
      · simp [h]
      · exact ih s h
    · cases h : splitNL bs with
      | nil => exact absurd h (splitNL_ne_nil bs)
      | cons t ts =>
        simp only [splitNL, hb, if_false, h]
        intro s hs
        rcases List.mem_cons.mp hs with hrf | hmem
        · subst hrf
          intro hmem2
          rcases List.mem_cons.mp hmem2 with hh | hh
          · exact hb hh.symm
          · exact ih t (by simp [h]) hh
        · exact ih s (by simp [h, hmem])

theorem terminatedJoin_splitNL (l : List Nat) : terminatedJoin (splitNL l) = l ++ [NL] := by
  induction l with
  | nil => simp [splitNL, terminatedJoin]
  | cons b bs ih =>
    by_cases hb : b = NL
    · simp [splitNL, hb, terminatedJoin] at ih ⊢
      exact ih
    · cases h : splitNL bs with
      | nil => exact absurd h (splitNL_ne_nil bs)
      | cons t ts =>
        rw [h] at ih
        simp only [splitNL, hb, if_false, h]
        simp only [terminatedJoin, List.map_cons, List.flatten_cons] at ih ⊢
        simp only [List.cons_append]
        rw [ih]

theorem joinNL_splitNL (l : List Nat) : joinNL (splitNL l) = l := by
  induction l with
  | nil => simp [splitNL, joinNL]
  | cons b bs ih =>
    by_cases hb : b = NL
    · cases h : splitNL bs with
      | nil => exact absurd h (splitNL_ne_nil bs)
      | cons t ts =>
        rw [h] at ih
        simp only [splitNL, hb, if_true, h, joinNL]
        simpa [joinNL] using ih
    · cases h : splitNL bs with
      | nil => exact absurd h (splitNL_ne_nil bs)
      | cons t ts =>
        rw [h] at ih
        simp only [splitNL, hb, if_false, h]
        cases ts with
        | nil => simpa [joinNL] using congrArg (fun x => b :: x) ih
        | cons u us => simpa [joinNL] using congrArg (fun x => b :: x) ih

theorem readNLines1_complete :
    ∀ (ls : List (List Nat)) (evs : List Chunk),
      readNLines1 ls.length [] (ls.map (fun s => (s, false)) ++ evs) = (ls, evs)
  | [], evs => by simp [readNLines1]
  | s :: ls, evs => by
    simp [readNLines1, readNLines1_complete ls evs]

theorem readNLines2_complete :
    ∀ (ls : List (List Nat)) (evs : List Chunk),
      readNLines2 ls.length [] (ls.map (fun s => (s, false)) ++ evs) = (ls, evs)
  | [], evs => by simp [readNLines2]
  | s :: ls, evs => by
    simp [readNLines2, readNLines2_complete ls evs]

theorem readNLines1_length_le :
    ∀ (n : Nat) (line : List Nat) (evs : List Chunk),
      (readNLines1 n line evs).1.length ≤ n
  | 0, _, _ => by simp [readNLines1]
  | n + 1, line, [] => by
    simp only [readNLines1]
    split <;> simp
  | n + 1, line, (chunk, pfx) :: evs => by
    simp only [readNLines1]
    by_cases hp : pfx
    · simp only [hp, if_true]
      exact Nat.le_succ_of_le (readNLines1_length_le n (line ++ chunk) evs)
    · simp only [hp, if_false, List.length_cons]
      exact Nat.succ_le_succ (readNLines1_length_le n [] evs)

theorem readDocsLoop_line (c : Nat) (hc : 1 ≤ c) (L pending rest : List Nat)
    (hL : NL ∉ L) :
    readDocsLoop pending (readLineEvents c (L ++ NL :: rest)) =
      (b64decode (pending ++ L)).bind
        (fun d => (readDocsLoop [] (readLineEvents c rest)).map (fun ds => d :: ds)) := by
  by_cases h : L.length < c
  · rw [readLineEvents_line c L rest hL h]
    simp only [readDocsLoop, Bool.false_eq_true, if_false]
    cases b64decode (pending ++ L) <;> simp
  · rw [readLineEvents_longline c L rest hL hc (Nat.le_of_not_lt h)]
    simp only [readDocsLoop, if_true]
    have hrec := readDocsLoop_line c hc (L.drop c) (pending ++ L.take c) rest
      (fun hm => hL (List.drop_subset c L hm))
    rw [hrec, List.append_assoc, List.take_append_drop]
termination_by L.length
decreasing_by
  simp only [List.length_drop]
  omega

theorem readDocsLoop_tail (c : Nat) (hc : 1 ≤ c) (tail pending : List Nat)
    (h : NL ∉ tail) :
    readDocsLoop pending (readLineEvents c tail) =
      if pending ++ tail = [] then some []
      else (b64decode (pending ++ tail)).map (fun d => [d]) := by
  by_cases htail : tail = []
  · subst htail
    show readDocsLoop pending [] = _
    simp only [readDocsLoop, List.append_nil]
    by_cases hp : pending = []
    · simp [hp]
    · have : pending.length > 0 := List.length_pos.mpr hp
      simp [this, hp]
  · by_cases hlen : tail.length ≤ c
    · rw [readLineEvents_nonl_short c tail h hlen htail]
      simp only [readDocsLoop, Bool.false_eq_true, if_false]
      have hne : ¬(pending ++ tail = []) := by simp [htail]
      simp only [hne, if_false]
      cases b64decode (pending ++ tail) <;> simp [readDocsLoop]
    · rw [readLineEvents_nonl_long c tail h hc (Nat.lt_of_not_le hlen)]
      simp only [readDocsLoop, if_true]
      have hdropne : tail.drop c ≠ [] := by
        intro hd
        have := List.length_drop c tail
        rw [hd] at this
        simp at this
        omega
      have hrec := readDocsLoop_tail c hc (tail.drop c) (pending ++ tail.take c)
        (fun hm => h (List.drop_subset c tail hm))
      rw [hrec, List.append_assoc, List.take_append_drop]
termination_by tail.length
decreasing_by
  simp only [List.length_drop]
  omega

theorem readDocs_lines (c : Nat) (hc : 1 ≤ c) :
    ∀ (ls : List (List Nat)) (tail : List Nat),
      (∀ L ∈ ls, NL ∉ L) → NL ∉ tail →
      readDocs c (terminatedJoin ls ++ tail) =
        decodeAll (ls ++ if tail = [] then [] else [tail])
  | [], tail, _, ht => by
    show readDocsLoop [] (readLineEvents c (terminatedJoin [] ++ tail)) = _
    have : terminatedJoin [] ++ tail = tail := by simp [terminatedJoin]
    rw [this, readDocsLoop_tail c hc tail [] ht]
    by_cases htail : tail = []
    · simp [htail, decodeAll]
    · simp only [List.nil_append, htail, if_false]
      cases hdec : b64decode tail <;> simp [decodeAll, hdec]
  | L :: ls, tail, hls, ht => by
    show readDocsLoop [] (readLineEvents c (terminatedJoin (L :: ls) ++ tail)) = _
    have hstream : terminatedJoin (L :: ls) ++ tail = L ++ NL :: (terminatedJoin ls ++ tail) := by
      simp [terminatedJoin]
    rw [hstream, readDocsLoop_line c hc L [] _ (hls L (by simp)), List.nil_append]
    have hrec := readDocs_lines c hc ls tail (fun M hM => hls M (by simp [hM])) ht
    rw [show readDocsLoop [] (readLineEvents c (terminatedJoin ls ++ tail)) =
        readDocs c (terminatedJoin ls ++ tail) from rfl, hrec]
    cases hdec : b64decode L with
    | none => simp [decodeAll, hdec]
    | some d =>
      cases hall : decodeAll (ls ++ if tail = [] then [] else [tail]) with
      | none => simp [decodeAll, hdec, hall]
      | some ds => simp [decodeAll, hdec, hall]

theorem dsx_sx (n : Nat) (h : n < 64) : dsx (sx n) = some n :=
  (by decide : ∀ m, m < 64 → dsx (sx m) = some m) n h

theorem sx_ne_pad (n : Nat) (h : n < 64) : sx n ≠ PAD :=
  (by decide : ∀ m, m < 64 → sx m ≠ PAD) n h

theorem sx_ne_nl (n : Nat) : sx n ≠ NL := by
  by_cases h : n < 64
  · exact (by decide : ∀ m, m < 64 → sx m ≠ NL) n h
  · unfold sx
    rw [List.getD_eq_default]
    · decide
    · have hlen : b64alphabet.length = 64 := by decide
      omega

theorem nl_not_mem_b64encode : ∀ (d : List Nat), NL ∉ b64encode d
  | [] => by simp [b64encode]
  | [a] => by
    have h1 := Ne.symm (sx_ne_nl (a / 4))
    have h2 := Ne.symm (sx_ne_nl (a % 4 * 16))
    have hp : NL ≠ PAD := by decide
    simp [b64encode, h1, h2, hp]
  | [a, b] => by
    have h1 := Ne.symm (sx_ne_nl (a / 4))
    have h2 := Ne.symm (sx_ne_nl (a % 4 * 16 + b / 16))
    have h3 := Ne.symm (sx_ne_nl (b % 16 * 4))
    have hp : NL ≠ PAD := by decide
    simp [b64encode, h1, h2, h3, hp]
  | a :: b :: c' :: rest => by
    have h1 := Ne.symm (sx_ne_nl (a / 4))
    have h2 := Ne.symm (sx_ne_nl (a % 4 * 16 + b / 16))
    have h3 := Ne.symm (sx_ne_nl (b % 16 * 4 + c' / 64))
    have h4 := Ne.symm (sx_ne_nl (c' % 64))
    have ih := nl_not_mem_b64encode rest
    simp [b64encode, h1, h2, h3, h4, ih]

theorem b64_roundtrip : ∀ (d : List Nat), (∀ x ∈ d, x < 256) →
    b64decode (b64encode d) = some d
  | [], _ => rfl
  | [a], h => by
    have ha : a < 256 := h a (by simp)
    have h1 : dsx (sx (a / 4)) = some (a / 4) := dsx_sx _ (by omega)
    have h2 : dsx (sx (a % 4 * 16)) = some (a % 4 * 16) := dsx_sx _ (by omega)
    simp only [b64encode, b64decode, h1, h2]
    simp
    omega
  | [a, b], h => by
    have ha : a < 256 := h a (by simp)
    have hb : b < 256 := h b (by simp)
    have h1 : dsx (sx (a / 4)) = some (a / 4) := dsx_sx _ (by omega)
    have h2 : dsx (sx (a % 4 * 16 + b / 16)) = some (a % 4 * 16 + b / 16) :=
      dsx_sx _ (by omega)
    have h3 : dsx (sx (b % 16 * 4)) = some (b % 16 * 4) := dsx_sx _ (by omega)
    have hnp : sx (b % 16 * 4) ≠ PAD := sx_ne_pad _ (by omega)
    simp only [b64encode, b64decode, h1, h2, h3, if_neg hnp]
    simp
    constructor <;> omega
  | a :: b :: c' :: rest, h => by
    have ha : a < 256 := h a (by simp)
    have hb : b < 256 := h b (by simp)
    have hcc : c' < 256 := h c' (by simp)
    have h1 : dsx (sx (a / 4)) = some (a / 4) := dsx_sx _ (by omega)
    have h2 : dsx (sx (a % 4 * 16 + b / 16)) = some (a % 4 * 16 + b / 16) :=
      dsx_sx _ (by omega)
    have h3 : dsx (sx (b % 16 * 4 + c' / 64)) = some (b % 16 * 4 + c' / 64) :=
      dsx_sx _ (by omega)
    have h4 : dsx (sx (c' % 64)) = some (c' % 64) := dsx_sx _ (by omega)
    have hnp3 : sx (b % 16 * 4 + c' / 64) ≠ PAD := sx_ne_pad _ (by omega)
    have hnp4 : sx (c' % 64) ≠ PAD := sx_ne_pad _ (by omega)
    have ih := b64_roundtrip rest (fun x hx => h x (by simp [hx]))
    simp only [b64encode, b64decode, h1, h2, h3, h4, if_neg hnp3, if_neg hnp4, ih]
    simp
    refine ⟨by omega, by omega, by omega⟩

theorem decodeAll_encodeAll : ∀ (docs : List (List Nat)),
    (∀ d ∈ docs, ∀ x ∈ d, x < 256) → decodeAll (encodeAll docs) = some docs
  | [], _ => rfl
  | d :: ds, h => by
    have h1 := b64_roundtrip d (h d (by simp))
    have h2 : decodeAll (List.map b64encode ds) = some ds :=
      decodeAll_encodeAll ds (fun e he x hx => h e (by simp [he]) x hx)
    simp [encodeAll, decodeAll, h1, h2]

theorem writeDocsList_feeder (c : Nat) :
    ∀ (docs : List (List Nat)) (rest : List Nat),
      (∀ d ∈ docs, ∀ s ∈ splitNL d, s.length < c) →
      writeDocsList (feederCounts docs) (readLineEvents c (feederInput docs ++ rest)) =
        some (framedRecords docs)
  | [], _, _ => by
    simp [feederCounts, framedRecords, encodeAll, writeDocsList]
  | d :: ds, rest, hfit => by
    have hseg : ∀ s ∈ splitNL d, NL ∉ s ∧ s.length < c :=
      fun s hs => ⟨not_mem_splitNL d s hs, hfit d (by simp) s hs⟩
    have hstream : feederInput (d :: ds) ++ rest =
        terminatedJoin (splitNL d) ++ (feederInput ds ++ rest) := by
      rw [terminatedJoin_splitNL]
      simp [feederInput, terminatedJoin]
    have hcount : feederCount d = (splitNL d).length := by
      rw [length_splitNL]
      rfl
    have hrec := writeDocsList_feeder c ds rest (fun e he s hs => hfit e (by simp [he]) s hs)
    rw [show feederCounts (d :: ds) = feederCount d :: feederCounts ds from rfl, hstream,
      readLineEvents_terminated c (splitNL d) _ hseg, hcount]
    simp [writeDocsList,
      readNLines1_complete (splitNL d) (readLineEvents c (feederInput ds ++ rest)),
      hrec, joinNL_splitNL, framedRecords, encodeAll]

theorem readDocs_b64Stream (c : Nat) (hc : 1 ≤ c) (docs : List (List Nat))
    (hbytes : ∀ d ∈ docs, ∀ x ∈ d, x < 256) :
    readDocs c (b64Stream docs) = some docs := by
  have hls : ∀ L ∈ encodeAll docs, NL ∉ L := by
    intro L hL
    obtain ⟨d, _, rfl⟩ := List.mem_map.mp hL
    exact nl_not_mem_b64encode d
  have hstream : b64Stream docs = terminatedJoin (encodeAll docs) ++ [] := by
    simp [b64Stream, framedRecords, terminatedJoin]
  rw [hstream, readDocs_lines c hc (encodeAll docs) [] hls (by simp)]
  simp [decodeAll_encodeAll docs hbytes]

theorem ledger_invariant (s : Ledger) (h : LedgerReach s) :
    s.buf.length ≤ ledgerCap ∧ s.pushed = s.popped ++ s.buf := by
  induction h with
  | init => simp
  | step hr hstep ih =>
    cases hstep with
    | push v t hlt =>
      refine ⟨?_, ?_⟩
      · simp only [List.length_append, List.length_cons, List.length_nil]
        omega
      · simp [ih.2]
    | pop v b' t hbuf =>
      refine ⟨?_, ?_⟩
      · have h1 := ih.1
        rw [hbuf] at h1
        simp only [List.length_cons] at h1
        change b'.length ≤ ledgerCap
        omega
      · have h2 := ih.2
        rw [hbuf] at h2
        simp [h2]

/-! ## Claim theorems -/

/-- Claim C1, amended (the claim as stated fails on revision 1 for documents
with a physical line of 4096 bytes or more, see `claim1_counterexample`):
for every document sequence whose physical lines are all shorter than the
4096-byte output read buffer, feeding the base64 stream of the documents
through the pipeline with an identity line-for-line filter yields exactly the
same stream back — one base64 line per input document, in input order — and
every output line decodes to the byte-identical input document (empty
documents and embedded terminators included). -/
theorem claim1_roundtrip_amended (c : Nat) (docs : List (List Nat)) (hc : 1 ≤ c)
    (hbytes : ∀ d ∈ docs, ∀ x ∈ d, x < 256)
    (hfit : ∀ d ∈ docs, ∀ s ∈ splitNL d, s.length < c) :
    b64filterRun c (b64Stream docs) = some (b64Stream docs) ∧
      decodeAll (encodeAll docs) = some docs := by
  refine ⟨?_, decodeAll_encodeAll docs hbytes⟩
  unfold b64filterRun
  rw [readDocs_b64Stream c hc docs hbytes]
  show b64filterOut c docs = some (b64Stream docs)
  unfold b64filterOut writeDocsOut
  have hfeed := writeDocsList_feeder c docs [] hfit
  rw [List.append_nil] at hfeed
  rw [hfeed]
  simp [b64Stream]

/-- Claim C1, witness: the amended round trip evaluated on three concrete
documents (one with an embedded terminator, one empty, one single byte) at
the program's buffer capacity 4096. -/
theorem claim1_witness :
    b64filterRun 4096 (b64Stream [[72, 105, 10, 66], [], [97]]) =
        some (b64Stream [[72, 105, 10, 66], [], [97]]) ∧
      decodeAll (encodeAll [[72, 105, 10, 66], [], [97]]) =
        some [[72, 105, 10, 66], [], [97]] :=
  claim1_roundtrip_amended 4096 [[72, 105, 10, 66], [], [97]]
    (by decide) (by decide) (by decide)

/-- Claim C1, counterexample to the claim as stated: a single document that
is one 4096-byte physical line.  Revision 1's `readNLines` lets the
buffer-full continuation chunk consume a loop iteration, so it returns zero
complete lines where the ledger demands one, and the run aborts
(`expected 1 lines got 0`) instead of producing the round-tripped output. -/
theorem claim1_counterexample :
    b64filterRun 4096 (b64Stream [bigDoc]) ≠ some (b64Stream [bigDoc]) := by
  have hnl : NL ∉ bigDoc := by
    unfold bigDoc
    intro hm
    have h2 := (List.mem_replicate.mp hm).2
    exact absurd h2 (by decide)
  have hlen : bigDoc.length = 4096 := by
    unfold bigDoc
    exact List.length_replicate 4096 65
  have hread : readDocs 4096 (b64Stream [bigDoc]) = some [bigDoc] := by
    apply readDocs_b64Stream 4096 (by omega)
    intro d hd x hx
    have hd' : d = bigDoc := by simpa using hd
    subst hd'
    unfold bigDoc at hx
    have hx' : x = 65 := List.eq_of_mem_replicate hx
    omega
  have hcount : feederCounts [bigDoc] = [1] := by
    have hcnt : bigDoc.count NL = 0 := List.count_eq_zero.mpr hnl
    simp [feederCounts, feederCount, hcnt]
  have hfeedin : feederInput [bigDoc] = bigDoc ++ NL :: [] := by
    simp [feederInput, terminatedJoin]
  have hdrop : bigDoc.drop 4096 = [] := by
    rw [← hlen]
    exact List.drop_length bigDoc
  have hevents : readLineEvents 4096 (bigDoc ++ NL :: []) =
      (bigDoc.take 4096, true) :: ([], false) :: [] := by
    rw [readLineEvents_longline 4096 bigDoc [] hnl (by decide) (by omega)]
    rw [hdrop]
    rw [readLineEvents_line 4096 [] [] (by decide) (by decide)]
    rfl
  intro hcontra
  unfold b64filterRun at hcontra
  rw [hread] at hcontra
  simp only [b64filterOut, writeDocsOut, hcount, hfeedin, hevents] at hcontra
  simp [writeDocsList, readNLines1] at hcontra

/-- Claim C2: the integer pushed onto the ledger for a document is
`bytes.Count(doc, "\n") + 1` (terminator bytes in the raw document plus one,
the claim's reading of "content lines plus one"), and it equals the number of
fully-terminated physical lines the feeder writes for that document — both
as the terminator count of the written bytes `doc ++ "\n"` and as the number
of terminator-separated segments of the written bytes minus the final empty
fragment. -/
theorem claim2_ledger_count (d : List Nat) :
    feederCount d = d.count NL + 1 ∧
      (feederWrites d).count NL = feederCount d ∧
      (splitNL (feederWrites d)).length - 1 = feederCount d := by
  refine ⟨rfl, ?_, ?_⟩
  · simp [feederWrites, feederCount]
  · rw [length_splitNL]
    simp [feederWrites, feederCount]

/-- Claim C3: strict FIFO correspondence.  The ledger contents are exactly
the per-document counts in document order (`feederCounts docs =
docs.map feederCount`, so the k-th count pushed is computed from the k-th
document), and the reassembler, consuming those counts in order against the
identity-filtered stream, produces exactly the framed records of the
documents in order (`framedRecords docs` is `docs` mapped position-wise to
its encoded, terminated output record, so the k-th output record comes from
the k-th count and the k-th document).  The line-length hypothesis is the
one under which revision 1 reassembles at all (see `claim1_counterexample`). -/
theorem claim3_fifo_order (c : Nat) (docs : List (List Nat))
    (hfit : ∀ d ∈ docs, ∀ s ∈ splitNL d, s.length < c) :
    feederCounts docs = docs.map feederCount ∧
      writeDocsList (feederCounts docs) (readLineEvents c (feederInput docs)) =
        some (framedRecords docs) := by
  refine ⟨rfl, ?_⟩
  have h := writeDocsList_feeder c docs [] hfit
  rwa [List.append_nil] at h

/-- Claim C3, witness: the FIFO correspondence evaluated on two concrete
documents at buffer capacity 4096. -/
theorem claim3_witness :
    feederCounts [[97, 10, 98], [99]] = ([[97, 10, 98], [99]] : List (List Nat)).map feederCount ∧
      writeDocsList (feederCounts [[97, 10, 98], [99]])
          (readLineEvents 4096 (feederInput [[97, 10, 98], [99]])) =
        some (framedRecords [[97, 10, 98], [99]]) :=
  claim3_fifo_order 4096 [[97, 10, 98], [99]] (by decide)

/-- Claim C4: the claim demands that in every execution the reassembler's
drain-complete signal precedes the wait on subprocess exit.  Revision 2's
coordinator does receive the done signal before `cmd.Wait()`, but revision
1's coordinator has no drain signal at all and calls `cmd.Wait()` directly
after closing the pipes — the code contradicts the requirement that revision
2 itself documents ("it is required that all reading from the command is
done before calling Wait()"). -/
theorem claim4_drain_before_wait :
    eventBefore CoordEvent.recvDone CoordEvent.waitCmd shutdownTrace2 = true ∧
      eventBefore CoordEvent.recvDone CoordEvent.waitCmd shutdownTrace1 = false := by
  decide

/-- Claim C5, counterexample to the claim as stated: in revision 1 the error
drain's `io.Copy` failure handler is `log.Fatalf`, i.e. fatal, not the
tolerated log-and-continue the claim asserts. -/
theorem claim5_counterexample : stderrDrainFailure1 = FailureEffect.fatalAbort := rfl

/-- Claim C5, amended: in revision 2 an error-drain failure is logged and
non-fatal while in revision 1 it is fatal; every other failure (base64
decode, filter pipe write, line-count mismatch, abnormal subprocess exit) is
fatal in both revisions, as witnessed in the stream model by a bad base64
byte aborting `readDocs` and a short read aborting `writeDocs`. -/
theorem claim5_amended :
    stderrDrainFailure2 = FailureEffect.logContinue ∧
      stderrDrainFailure1 = FailureEffect.fatalAbort ∧
      decodeFailure = FailureEffect.fatalAbort ∧
      filterWriteFailure = FailureEffect.fatalAbort ∧
      countMismatchFailure = FailureEffect.fatalAbort ∧
      cmdWaitFailure = FailureEffect.fatalAbort ∧
      readDocs 4096 [33] = none ∧
      writeDocsList [2] (readLineEvents 4096 [97, 10]) = none := by
  refine ⟨rfl, rfl, rfl, rfl, rfl, rfl, ?_, ?_⟩ <;> decide

/-- Claim C6, counterexample to the claim as stated: in revision 1 the
input pipe is not closed before the ledger completion signal — the order is
`close(counts)` first, `cmdin.Close()` second. -/
theorem claim6_counterexample :
    eventBefore CoordEvent.closeStdin CoordEvent.closeLedger shutdownTrace1 = false := by
  decide

/-- Claim C6, amended: revision 2's feeder closes the subprocess input pipe
before signalling ledger completion (`Dispose`), as the claim states; in
revision 1 the order is reversed — the ledger channel is closed immediately
before the input pipe. -/
theorem claim6_amended :
    eventBefore CoordEvent.closeStdin CoordEvent.closeLedger shutdownTrace2 = true ∧
      eventBefore CoordEvent.closeLedger CoordEvent.closeStdin shutdownTrace1 = true := by
  decide

/-- Claim C7: revision 1's reassembler never collects more lines than the
ledger entry `n` demands, and whenever fewer than `n` lines are obtained (a
short read at end of output), `writeDocs` aborts the run
(`log.Fatalf("expected %v lines got %v", ...)`, `none` in the model) instead
of silently emitting a document assembled from fewer lines. -/
theorem claim7_short_read_fatal (n : Nat) (ns : List Nat) (evs : List Chunk) :
    (readNLines1 n [] evs).1.length ≤ n ∧
      ((readNLines1 n [] evs).1.length < n → writeDocsList (n :: ns) evs = none) := by
  refine ⟨readNLines1_length_le n [] evs, ?_⟩
  intro hlt
  have hne : ¬((readNLines1 n [] evs).1.length = n) := by omega
  simp [writeDocsList, hne]

/-- Claim C7, witness: a ledger entry of 2 against a stream holding a single
unterminated line is rejected. -/
theorem claim7_witness :
    (readNLines1 2 [] (readLineEvents 4096 [97])).1.length ≤ 2 ∧
      writeDocsList [2] (readLineEvents 4096 [97]) = none :=
  ⟨(claim7_short_read_fatal 2 [] (readLineEvents 4096 [97])).1,
   (claim7_short_read_fatal 2 [] (readLineEvents 4096 [97])).2 (by decide)⟩

/-- Claim C8: in every reachable state of revision 1's count ledger (the
buffered channel of capacity 256) the buffer never exceeds the capacity, the
pushed history is exactly the popped history followed by the buffer contents
(FIFO, nothing dropped or reordered), and a push is blocked exactly when the
buffer is at capacity. -/
theorem claim8_ledger_bounded (s : Ledger) (h : LedgerReach s) :
    s.buf.length ≤ ledgerCap ∧ s.pushed = s.popped ++ s.buf ∧
      (s.buf.length = ledgerCap ↔ ledgerPushEnabled s = false) := by
  obtain ⟨h1, h2⟩ := ledger_invariant s h
  refine ⟨h1, h2, ?_⟩
  unfold ledgerPushEnabled
  constructor
  · intro he
    rw [he]
    simp
  · intro hb
    by_contra hne
    have hlt : s.buf.length < ledgerCap := by omega
    simp [hlt] at hb

/-- Claim C8, witness: the ledger invariants evaluated at the initial empty
channel state, reachable by `LedgerReach.init`. -/
theorem claim8_witness :
    (Ledger.mk [] [] []).buf.length ≤ ledgerCap ∧
      (Ledger.mk [] [] []).pushed = (Ledger.mk [] [] []).popped ++ (Ledger.mk [] [] []).buf ∧
      ((Ledger.mk [] [] []).buf.length = ledgerCap ↔
        ledgerPushEnabled (Ledger.mk [] [] []) = false) :=
  claim8_ledger_bounded (Ledger.mk [] [] []) LedgerReach.init

/-- Claim C9: the decoder on a stream of terminated base64 lines followed by
an optional unterminated tail emits, in order, the decode of every terminated
line, plus the decode of the tail exactly when it is non-empty (no degenerate
empty document for an empty pending fragment at end of input); a decode
failure on any of those lines makes the whole result `none` (fatal). -/
theorem claim9_decoder_eof (c : Nat) (ls : List (List Nat)) (tail : List Nat)
    (hc : 1 ≤ c) (hls : ∀ L ∈ ls, NL ∉ L) (ht : NL ∉ tail) :
    readDocs c (terminatedJoin ls ++ tail) =
      decodeAll (ls ++ if tail = [] then [] else [tail]) :=
  readDocs_lines c hc ls tail hls ht

/-- Claim C9, witness: one terminated base64 line followed by an unterminated
one ("QQ==" then "BQ==" without final newline) decodes to both documents. -/
theorem claim9_witness :
    readDocs 4096 (terminatedJoin [[81, 81, 61, 61]] ++ [66, 81, 61, 61]) =
      decodeAll ([[81, 81, 61, 61]] ++
        if ([66, 81, 61, 61] : List Nat) = [] then [] else [[66, 81, 61, 61]]) :=
  claim9_decoder_eof 4096 [[81, 81, 61, 61]] [66, 81, 61, 61]
    (by decide) (by decide) (by decide)

/-- Claim C10, counterexample to the claim as stated: the two revisions of
`readNLines` disagree both at end of input with an empty pending fragment
(requested count 1 on an empty stream: revision 1 returns no lines, revision
2 returns one empty line) and on a physical line longer than the read buffer
(capacity 1, stream "ab\n": revision 1 returns no complete line because the
continuation chunk consumes the only iteration, revision 2 returns the full
line "ab"). -/
theorem claim10_counterexample :
    readNLinesRev1 1024 1 [] ≠ readNLinesRev2 1024 1 [] ∧
      readNLinesRev1 1 1 [97, 98, 10] ≠ readNLinesRev2 1 1 [97, 98, 10] := by
  decide

/-- Claim C10, amended: the two revisions of `readNLines` agree — both
returning exactly the requested lines — whenever the stream supplies the
requested number of fully-terminated lines, each shorter than the buffer
capacity, before end of input; they disagree at buffer-exceeding lines and at
end-of-input with an empty pending fragment (see
`claim10_counterexample`). -/
theorem claim10_amended (c : Nat) (ls : List (List Nat)) (rest : List Nat)
    (h : ∀ L ∈ ls, NL ∉ L ∧ L.length < c) :
    readNLinesRev1 c ls.length (terminatedJoin ls ++ rest) = ls ∧
      readNLinesRev2 c ls.length (terminatedJoin ls ++ rest) = ls := by
  have he := readLineEvents_terminated c ls rest h
  constructor
  · show (readNLines1 ls.length [] (readLineEvents c (terminatedJoin ls ++ rest))).1 = ls
    rw [he, readNLines1_complete ls (readLineEvents c rest)]
  · show (readNLines2 ls.length [] (readLineEvents c (terminatedJoin ls ++ rest))).1 = ls
    rw [he, readNLines2_complete ls (readLineEvents c rest)]

/-- Claim C10, witness: two short terminated lines followed by extra stream
content are read identically by both revisions at capacity 4096. -/
theorem claim10_witness :
    readNLinesRev1 4096 ([[97], [98, 99]] : List (List Nat)).length
        (terminatedJoin [[97], [98, 99]] ++ [100]) = [[97], [98, 99]] ∧
      readNLinesRev2 4096 ([[97], [98, 99]] : List (List Nat)).length
        (terminatedJoin [[97], [98, 99]] ++ [100]) = [[97], [98, 99]] :=
  claim10_amended 4096 [[97], [98, 99]] [100] (by decide)

end B64Filter
